import Mathlib

/-!
Verification development for the EAOS autonomy engine, event bus and plugin
system.  Definitions are shallow embeddings of the JavaScript sources:

* the autonomy engine module (`AutonomyEngine`, `Trigger`, the cycle batteries
  and the scheduler arithmetic),
* the event bus module (`EventBus.emit`, `matchesPattern`),
* the plugin system module (`PluginManager` lifecycle and hook dispatch).

Machine conventions used throughout:

* wall-clock instants are modelled as natural-number timestamps;
* JavaScript strings stay `String`, and status values keep the exact string
  literals of the source (`"skipped"`, `"cancelled"`, ...);
* JavaScript `Map` objects become association lists in insertion order;
* plugin / hook handler functions are opaque Lean functions; handler code is
  assumed not to re-enter the engine and not to throw, except where the
  source explicitly routes a thrown error (task handlers).
-/

namespace EAOS

/-! ### Approval levels and engine construction

From the autonomy engine module: `HDM_LEVELS`, `ENGINE_STATES` and the
`AutonomyEngine` constructor. -/

/-- Engine runtime states (`ENGINE_STATES`). -/
inductive EngineRunState where
  | stopped | running | paused | error
deriving DecidableEq, Repr

/-- Cycle kinds (`CYCLE_TYPES`). -/
inductive CycleType where
  | daily | weekly | monthly | manual
deriving DecidableEq, Repr

/-- A task of a cycle battery. -/
structure Task where
  id : String
  name : String
  hdmLevel : Nat
deriving DecidableEq, Repr

/-- `DAILY_TASKS` from the autonomy engine module. -/
def DAILY_TASKS : List Task :=
  [ ⟨"health-scan", "System Health Scan", 0⟩,
    ⟨"drift-detection", "Drift Detection", 0⟩,
    ⟨"security-sweep", "Security Sweep", 1⟩,
    ⟨"financial-anomaly", "Financial Anomaly Detection", 1⟩,
    ⟨"compliance-check", "Compliance Control Check", 0⟩,
    ⟨"observability", "Observability Validation", 0⟩ ]

/-- `WEEKLY_TASKS` from the autonomy engine module. -/
def WEEKLY_TASKS : List Task :=
  [ ⟨"ciw-execution", "CIW Agent Execution", 1⟩,
    ⟨"scorecard-refresh", "Scorecard Refresh", 0⟩,
    ⟨"beads-refinement", "BEADS Refinement", 1⟩,
    ⟨"release-readiness", "Release Readiness Check", 1⟩ ]

/-- `MONTHLY_TASKS` from the autonomy engine module. -/
def MONTHLY_TASKS : List Task :=
  [ ⟨"architecture-audit", "Full Architecture Audit", 2⟩,
    ⟨"compliance-mapping", "Full Compliance Mapping", 2⟩,
    ⟨"multiverse-test", "Multiverse Scenario Test", 2⟩,
    ⟨"quantum-merge", "Quantum Planner Horizon Merge", 2⟩,
    ⟨"executive-report", "Executive Readiness Report", 1⟩ ]

/-- `getTasksForCycle` from the autonomy engine module. -/
def getTasksForCycle : CycleType → List Task
  | .daily => DAILY_TASKS
  | .weekly => WEEKLY_TASKS
  | .monthly => MONTHLY_TASKS
  | .manual => []

/-- The constructor line `this.hdmLevel = options.hdmLevel || HDM_LEVELS.CONFIRM`:
JavaScript `||` replaces an absent value, but also the falsy explicit level `0`,
by the default `HDM_LEVELS.CONFIRM = 2`. -/
def constructorHdmLevel : Option Nat → Nat
  | none => 2
  | some v => if v = 0 then 2 else v

/-! ### Cycle runner

Shallow embedding of `AutonomyEngine.runCycle` / `AutonomyEngine.executeTask`.
Wall-clock reads are modelled by threading a `Nat` clock; the duration of a
task's execution envelope is supplied by an oracle `dur`, and the outcome of
the timeout/retry envelope around `runTaskHandler` by an oracle `hout`
(`Except.error` is a thrown error's message, `Except.ok` the output).
The result of the plugin `beforeCycle` hooks is abstracted by the single
`cancelled` flag the runner inspects.  Emitted bus events are collected as
`(event name, subject id)` pairs, and handler invocations as task ids. -/

/-- Event name `AutonomyEvents.CYCLE_START`. -/
def CYCLE_START : String := "autonomy:cycle:start"

/-- Event name `AutonomyEvents.CYCLE_END`. -/
def CYCLE_END : String := "autonomy:cycle:end"

/-- Event name `AutonomyEvents.CYCLE_SKIP`. -/
def CYCLE_SKIP : String := "autonomy:cycle:skip"

/-- Event name `AutonomyEvents.TASK_START`. -/
def TASK_START : String := "autonomy:task:start"

/-- Event name `AutonomyEvents.TASK_END`. -/
def TASK_END : String := "autonomy:task:end"

/-- Event name `AutonomyEvents.TASK_ERROR`. -/
def TASK_ERROR : String := "autonomy:task:error"

/-- Event name `AutonomyEvents.APPROVAL_REQUIRED`. -/
def APPROVAL_REQUIRED : String := "autonomy:approval:required"

/-- Event name `AutonomyEvents.TRIGGER_FIRE`. -/
def TRIGGER_FIRE : String := "autonomy:trigger:fire"

/-- One entry of `cycleReport.tasks`.  The source pushes two object shapes:
the skip entry `{...task, status, reason}` (which keeps the task's
`hdmLevel` and has no times) and the result of `executeTask`
(`{id, name, startTime, endTime, status, output, error}`); absent fields
are `none`. -/
structure TaskResult where
  id : String
  name : String
  hdmLevel : Option Nat
  startTime : Option Nat
  endTime : Option Nat
  status : String
  output : Option String
  error : Option String
  reason : Option String
deriving DecidableEq, Repr

/-- A cycle report as built by `runCycle`. -/
structure CycleReport where
  id : String
  type : CycleType
  startTime : Nat
  endTime : Option Nat
  tasks : List TaskResult
  status : String
  errors : List String
deriving DecidableEq, Repr

/-- The skip entry `{...task, status: 'skipped', reason: 'Requires higher
approval level'}` pushed by `runCycle` for an approval-gated task. -/
def skipEntry (task : Task) : TaskResult :=
  { id := task.id, name := task.name, hdmLevel := some task.hdmLevel,
    startTime := none, endTime := none, status := "skipped",
    output := none, error := none, reason := some "Requires higher approval level" }

/-- `AutonomyEngine.executeTask`: runs the task handler under the
timeout/retry envelope (outcome given by `hout`), stamping start and end
times.  Returns the task result together with the clock after execution. -/
def executeTask (dur : Task → Nat) (hout : Task → Except String String)
    (t0 : Nat) (task : Task) : TaskResult × Nat :=
  let t1 := t0 + dur task
  match hout task with
  | .ok out =>
      ({ id := task.id, name := task.name, hdmLevel := none,
         startTime := some t0, endTime := some t1, status := "completed",
         output := some out, error := none, reason := none }, t1)
  | .error msg =>
      ({ id := task.id, name := task.name, hdmLevel := none,
         startTime := some t0, endTime := some t1, status := "error",
         output := none, error := some msg, reason := none }, t1)

/-- Accumulated observations of the task loop of `runCycle`. -/
structure TasksOut where
  results : List TaskResult
  events : List (String × String)
  invoked : List String
  errMsgs : List String
  clock : Nat
deriving Repr

/-- The task loop of `runCycle`: per task, the approval gate, then
`executeTask` with its surrounding task events. -/
def runTasks (hdm : Nat) (dur : Task → Nat) (hout : Task → Except String String) :
    List Task → Nat → TasksOut
  | [], t => ⟨[], [], [], [], t⟩
  | task :: rest, t =>
    if hdm < task.hdmLevel then
      let o := runTasks hdm dur hout rest t
      { o with results := skipEntry task :: o.results,
               events := (APPROVAL_REQUIRED, task.id) :: o.events }
    else
      let (tr, t1) := executeTask dur hout t task
      let o := runTasks hdm dur hout rest t1
      let taskEvs :=
        (TASK_START, task.id) ::
          (if tr.status = "error" then [(TASK_ERROR, task.id)] else []) ++
            [(TASK_END, task.id)]
      { results := tr :: o.results, events := taskEvs ++ o.events,
        invoked := task.id :: o.invoked,
        errMsgs := (match tr.error with | some m => [m] | none => []) ++ o.errMsgs,
        clock := o.clock }

/-- Observable outcome of one `runCycle` call. -/
structure CycleOut where
  report : Option CycleReport
  events : List (String × String)
  invoked : List String
deriving Repr

/-- `AutonomyEngine.runCycle`: the report is `none` when the engine is not
running and `force` is not set.  `cancelled` is the `cancelled` flag of the
context returned by the `beforeCycle` plugin hooks. -/
def runCycleModel (state : EngineRunState) (force : Bool) (hdm : Nat)
    (ctype : CycleType) (cancelled : Bool) (t0 : Nat)
    (dur : Task → Nat) (hout : Task → Except String String) : CycleOut :=
  if state ≠ .running ∧ force = false then ⟨none, [], []⟩ else
  let tasks := getTasksForCycle ctype
  let cycleId := toString t0
  if cancelled then
    ⟨some { id := cycleId, type := ctype, startTime := t0, endTime := none,
            tasks := [], status := "cancelled", errors := [] },
     [(CYCLE_START, cycleId), (CYCLE_SKIP, cycleId)], []⟩
  else
    let o := runTasks hdm dur hout tasks t0
    ⟨some { id := cycleId, type := ctype, startTime := t0, endTime := some o.clock,
            tasks := o.results,
            status := if o.errMsgs.isEmpty then "completed" else "completed_with_errors",
            errors := o.errMsgs },
     (CYCLE_START, cycleId) :: o.events ++ [(CYCLE_END, cycleId)], o.invoked⟩

/-- The property Claim C1 asserts of a cycle report: every gated task of the
battery appears with status `skipped` and the (lower-case) reason
"requires higher approval level". -/
def c1ReportProperty (hdm : Nat) (battery : List Task) (r : CycleReport) : Bool :=
  battery.all fun t =>
    decide (t.hdmLevel ≤ hdm) ||
      r.tasks.any fun e =>
        e.id == t.id && e.status == "skipped" &&
          e.reason == some "requires higher approval level"

/-- A concrete gated run: engine at approval level 1 forced through the
monthly battery (tasks of levels 2,2,2,2,1). -/
def gateDemoRun : CycleOut :=
  runCycleModel .running true 1 .monthly false 0 (fun _ => 1) (fun _ => .ok "done")

/-- The property Claim C4 asserts of a cycle report: `endTime ≥ startTime`,
and status `running` exactly when `endTime` is absent. -/
def c4ReportProperty (r : CycleReport) : Bool :=
  (match r.endTime with | some e => decide (r.startTime ≤ e) | none => true) &&
    ((r.status == "running") == (r.endTime == none))

/-- A concrete run whose `beforeCycle` hooks cancel the cycle. -/
def cancelDemoRun : CycleOut :=
  runCycleModel .running false 2 .daily true 5 (fun _ => 1) (fun _ => .ok "x")

/-! ### Wildcard pattern matching

`EventBus.matchesPattern` builds the anchored regex
`^ seg0 .* seg1 .* ... .* segk $` from the pattern's `*`-separated segments
(all other characters escaped, so they match literally).  The embedding
implements that regex's semantics directly: the first segment anchors the
start, the last one the end, and each `.*` gap is an arbitrary run of
characters (`gapMatch` searches over every gap length).
`Trigger.matchesWildcard` in the autonomy engine module has the same
implementation, so both modules share this definition. -/

/-- `pattern.split('*')` on character lists. -/
def splitOnStar : List Char → List (List Char)
  | [] => [[]]
  | c :: cs =>
    if c = '*' then [] :: splitOnStar cs
    else
      match splitOnStar cs with
      | [] => [[c]]
      | s :: rest => (c :: s) :: rest

/-- Re-joins `*`-separated segments; inverse of `splitOnStar`. -/
def joinStar : List (List Char) → List Char
  | [] => []
  | [s] => s
  | s :: s2 :: rest => s ++ '*' :: joinStar (s2 :: rest)

/-- Matches `.* seg1 .* seg2 ... .* segk $` against `r`: each segment after
an arbitrary gap, the last one ending the string. -/
def gapMatch : List (List Char) → List Char → Bool
  | [], r => r.isEmpty
  | [s], r => s.isSuffixOf r
  | s :: s2 :: rest, r =>
    (List.range (r.length + 1)).any fun i =>
      s.isPrefixOf (r.drop i) && gapMatch (s2 :: rest) ((r.drop i).drop s.length)

/-- `EventBus.matchesPattern(event, pattern)`: `*` alone matches everything;
a star-free pattern must equal the event name; otherwise the segments must
occur in order, anchored at both ends, with `*` gaps. -/
def matchesPattern (event pattern : String) : Bool :=
  if pattern = "*" then true
  else if !(pattern.toList.contains '*') then event == pattern
  else
    match splitOnStar pattern.toList with
    | [] => false
    | s :: rest => s.isPrefixOf event.toList && gapMatch rest (event.toList.drop s.length)

/-! ### Triggers and `processEvent`

From the autonomy engine module: the `Trigger` class and
`AutonomyEngine.processEvent`.  The event payload type is a parameter `δ`;
condition triggers hold a total predicate over it (the source's `RegExp`
patterns are not used by the engine and are not modelled).  Trigger actions
are observed as `(trigger id, action name)` pairs rather than dispatched,
and action handlers are assumed not to re-enter the engine. -/

/-- A trigger's pattern: an event-name string or a condition predicate. -/
inductive TrigPattern (δ : Type) where
  | str : String → TrigPattern δ
  | cond : (δ → Bool) → TrigPattern δ

/-- The `Trigger` class. -/
structure Trigger (δ : Type) where
  id : String
  name : String
  ttype : String
  pattern : TrigPattern δ
  action : String
  hdmLevel : Nat
  enabled : Bool
  lastFired : Option Nat
  fireCount : Nat

/-- `Trigger.matches(event)`: disabled triggers never match; an `event`
trigger with a string pattern matches by name equality or wildcard; a
`condition` trigger evaluates its predicate on the payload. -/
def Trigger.matchesEv {δ : Type} (g : Trigger δ) (evName : String) (evData : δ) : Bool :=
  if !g.enabled then false
  else if g.ttype == "event" then
    match g.pattern with
    | .str p => evName == p || matchesPattern evName p
    | .cond _ => false
  else if g.ttype == "condition" then
    match g.pattern with
    | .cond f => f evData
    | .str _ => false
  else false

/-- `Trigger.fire()`: stamps `lastFired` and increments `fireCount`. -/
def Trigger.fire {δ : Type} (now : Nat) (g : Trigger δ) : Trigger δ :=
  { g with lastFired := some now, fireCount := g.fireCount + 1 }

/-- Per-trigger effect of one `processEvent` pass: a matching trigger fires
unless the approval gate blocks it. -/
def procTrigger {δ : Type} (hdm now : Nat) (evName : String) (evData : δ)
    (g : Trigger δ) : Trigger δ :=
  if g.matchesEv evName evData then
    (if hdm < g.hdmLevel then g else g.fire now)
  else g

/-- Observable outcome of one `processEvent` call. -/
structure ProcOut (δ : Type) where
  triggers : List (Trigger δ)
  events : List (String × String)
  actions : List (String × String)

/-- `AutonomyEngine.processEvent`: no-op unless the engine is running;
otherwise every registered trigger is tested against the event, gated
matches emit `autonomy:approval:required`, ungated matches fire and have
their action dispatched.  Events are `(event name, trigger id)` pairs and
actions `(trigger id, action name)` pairs. -/
def processEventModel {δ : Type} (state : EngineRunState) (hdm now : Nat)
    (triggers : List (Trigger δ)) (evName : String) (evData : δ) : ProcOut δ :=
  if state ≠ .running then ⟨triggers, [], []⟩
  else
    ⟨ triggers.map (procTrigger hdm now evName evData),
      triggers.flatMap fun g =>
        if g.matchesEv evName evData then
          if hdm < g.hdmLevel then [(APPROVAL_REQUIRED, g.id)]
          else [(TRIGGER_FIRE, g.id)]
        else [],
      triggers.flatMap fun g =>
        if g.matchesEv evName evData && !(decide (hdm < g.hdmLevel)) then
          [(g.id, g.action)]
        else [] ⟩

/-- A concrete event trigger requiring approval level 3. -/
def demoTrigger : Trigger Unit :=
  ⟨"t1", "Demo Trigger", "event", .str "x:y", "runSecurityScan", 3, true, none, 0⟩

/-! ### Scheduler arithmetic

From `AutonomyEngine.scheduleNextCycle`.  For the weekly branch only day
arithmetic matters, so an instant is an absolute day index plus minutes past
midnight, with `getDay() = day % 7` (the epoch is chosen so weekday 0 is
Sunday, as in JavaScript).  For the monthly branch the civil calendar
matters: an instant is `(year, 0-based month, 1-based day, minutes)`, and
`new Date(y, m, d)` / `setMonth` normalise an out-of-range day by rolling it
forward into the following months, exactly as JavaScript `Date` does. -/

/-- An instant for the weekly scheduler: absolute day index and minutes
past midnight. -/
structure WeekTime where
  day : Nat
  minute : Nat
deriving DecidableEq, Repr

/-- JavaScript `Date` comparison `a <= b` on week instants. -/
def WeekTime.leB (a b : WeekTime) : Bool :=
  decide (a.day < b.day ∨ (a.day = b.day ∧ a.minute ≤ b.minute))

/-- Weekly schedule configuration `{ dayOfWeek, hour, minute }`. -/
structure WeeklySchedule where
  dayOfWeek : Nat
  hour : Nat
  minute : Nat
deriving Repr

/-- The weekly branch of `scheduleNextCycle`:
`daysUntil = (dayOfWeek - getDay() + 7) % 7 || 7` (the `|| 7` turns the
falsy 0 into 7), `setDate(getDate() + daysUntil)`, `setHours(hour, minute)`,
then add 7 days if the candidate is `<= now`. -/
def weeklyNextRun (s : WeeklySchedule) (now : WeekTime) : WeekTime :=
  let raw := (s.dayOfWeek + 7 - now.day % 7) % 7
  let daysUntil := if raw = 0 then 7 else raw
  let cand : WeekTime := ⟨now.day + daysUntil, s.hour * 60 + s.minute⟩
  if cand.leB now then ⟨cand.day + 7, cand.minute⟩ else cand

/-- Gregorian leap-year rule used by JavaScript `Date`. -/
def isLeapYear (y : Nat) : Bool :=
  y % 4 == 0 && (y % 100 != 0 || y % 400 == 0)

/-- Days in 0-based month `m` of year `y`. -/
def daysInMonth (y m : Nat) : Nat :=
  if m = 1 then (if isLeapYear y then 29 else 28)
  else if m = 3 ∨ m = 5 ∨ m = 8 ∨ m = 10 then 30
  else 31

/-- The month after `(y, m)` in 0-based month numbering. -/
def nextMonth (y m : Nat) : Nat × Nat :=
  if m = 11 then (y + 1, 0) else (y, m + 1)

/-- JavaScript day-of-month normalisation: while the day exceeds the month's
length, roll into the following month.  The fuel argument (instantiated with
`d`, which shrinks by at least 28 per step) makes the recursion structural. -/
def normDate : Nat → Nat → Nat → Nat → Nat × Nat × Nat
  | 0, y, m, d => (y, m, d)
  | fuel + 1, y, m, d =>
    if d ≤ daysInMonth y m then (y, m, d)
    else normDate fuel (nextMonth y m).1 (nextMonth y m).2 (d - daysInMonth y m)

/-- An instant for the monthly scheduler. -/
structure MDate where
  year : Nat
  month : Nat
  day : Nat
  minute : Nat
deriving DecidableEq, Repr

/-- `new Date(y, m, d)` followed by `setHours`: normalises the day. -/
def mkDate (y m d minute : Nat) : MDate :=
  ⟨(normDate d y m d).1, (normDate d y m d).2.1, (normDate d y m d).2.2, minute⟩

/-- `setMonth(getMonth() + 1)`: keeps the day-of-month and time, then
normalises an overflowing day into the following months. -/
def addOneMonth (dt : MDate) : MDate :=
  mkDate (nextMonth dt.year dt.month).1 (nextMonth dt.year dt.month).2 dt.day dt.minute

/-- JavaScript `Date` comparison `a <= b` on month instants. -/
def MDate.leB (a b : MDate) : Bool :=
  decide (a.year < b.year ∨ (a.year = b.year ∧ (a.month < b.month ∨ (a.month = b.month ∧
    (a.day < b.day ∨ (a.day = b.day ∧ a.minute ≤ b.minute))))))

/-- Monthly schedule configuration `{ dayOfMonth, hour, minute }`. -/
structure MonthlySchedule where
  dayOfMonth : Nat
  hour : Nat
  minute : Nat
deriving Repr

/-- The monthly branch of `scheduleNextCycle`:
`new Date(getFullYear(), getMonth(), dayOfMonth)`, `setHours(hour, minute)`,
then `setMonth(getMonth() + 1)` if the candidate is `<= now`. -/
def monthlyNextRun (s : MonthlySchedule) (now : MDate) : MDate :=
  let c := mkDate now.year now.month s.dayOfMonth (s.hour * 60 + s.minute)
  if c.leB now then addOneMonth c else c

/-! ### Engine state persistence

From `AutonomyEngine.saveState`, the constructor and
`AutonomyEngine.initialize`.  The state file's contents become `SavedState`;
condition-trigger payloads are the metric samples the default triggers
inspect. -/

/-- Payload data inspected by the default condition triggers. -/
structure EventData where
  errorRate : Option ℚ
  burnRate : Option ℚ

/-- `Trigger.toJSON()`: the persisted projection of a trigger. -/
structure TriggerJSON where
  id : String
  name : String
  ttype : String
  hdmLevel : Nat
  enabled : Bool
  lastFired : Option Nat
  fireCount : Nat
deriving DecidableEq, Repr

/-- `Trigger.toJSON` as a function on the trigger record. -/
def Trigger.toJSON {δ : Type} (g : Trigger δ) : TriggerJSON :=
  ⟨g.id, g.name, g.ttype, g.hdmLevel, g.enabled, g.lastFired, g.fireCount⟩

/-- `this.lastCycleRun`: per-kind instant of the last completed cycle. -/
structure LastRun where
  daily : Option Nat
  weekly : Option Nat
  monthly : Option Nat
deriving DecidableEq, Repr

/-- The engine fields `saveState`/`initialize` interact with. -/
structure EngineModel (δ : Type) where
  state : EngineRunState
  hdmLevel : Nat
  lastCycleRun : LastRun
  cycleHistory : List CycleReport
  triggers : List (Trigger δ)

/-- The contents of `state.json` written by `saveState`. -/
structure SavedState where
  state : EngineRunState
  lastCycleRun : LastRun
  cycleHistory : List CycleReport
  triggers : List TriggerJSON
  hdmLevel : Nat
deriving DecidableEq, Repr

/-- `AutonomyEngine.saveState`: snapshots the runtime state, `lastCycleRun`,
the last 10 history entries (`cycleHistory.slice(-10)`), the trigger
projections and the approval level. -/
def saveStateModel {δ : Type} (e : EngineModel δ) : SavedState :=
  ⟨e.state, e.lastCycleRun, e.cycleHistory.drop (e.cycleHistory.length - 10),
    e.triggers.map Trigger.toJSON, e.hdmLevel⟩

/-- The `AutonomyEngine` constructor: stopped, approval level from the
options (falsy 0 replaced by the default 2), empty history and registry. -/
def newEngineModel (optHdm : Option Nat) : EngineModel EventData :=
  ⟨.stopped, constructorHdmLevel optHdm, ⟨none, none, none⟩, [], []⟩

/-- The four triggers installed by `registerDefaultTriggers`. -/
def defaultTriggers : List (Trigger EventData) :=
  [ ⟨"pr-merge", "PR Merge Detection", "event", .str "git:pr:merge",
      "runSecuritySweep", 1, true, none, 0⟩,
    ⟨"dependency-update", "Dependency Update Detection", "event",
      .str "package:dependency:update", "runSecurityScan", 2, true, none, 0⟩,
    ⟨"error-spike", "Error Rate Spike", "condition",
      .cond (fun d => match d.errorRate with
        | some r => decide (r > 5 / 100)
        | none => false),
      "alertAndDiagnose", 1, true, none, 0⟩,
    ⟨"burn-rate", "Burn Rate Threshold", "condition",
      .cond (fun d => match d.burnRate with
        | some r => decide (r > 3 / 2)
        | none => false),
      "financialAlert", 2, true, none, 0⟩ ]

/-- `AutonomyEngine.initialize` on a freshly constructed engine: reads the
state file if present, restoring only `lastCycleRun` (`state.lastCycleRun ||
this.lastCycleRun`) and `cycleHistory` (`state.cycleHistory || []`), then
registers the default triggers. -/
def initEngineModel (optHdm : Option Nat) (saved : Option SavedState) :
    EngineModel EventData :=
  let e := newEngineModel optHdm
  let e1 := match saved with
    | none => e
    | some s => { e with lastCycleRun := s.lastCycleRun, cycleHistory := s.cycleHistory }
  { e1 with triggers := defaultTriggers }

/-- A custom trigger registered (and fired five times) before a save. -/
def c7CustomTrigger : Trigger EventData :=
  ⟨"custom", "Custom Trigger", "event", .str "a:b", "runSecurityScan", 1, true, some 9, 5⟩

/-- A running engine at level 3 with a fired custom trigger, about to save. -/
def c7Engine : EngineModel EventData :=
  ⟨.running, 3, ⟨some 11, none, none⟩, [], defaultTriggers ++ [c7CustomTrigger]⟩

/-! ### Plugin hook registration and dispatch

From the plugin system module: `PluginManager.registerPluginHooks` and
`PluginManager.executeHooks`.  A hook context is a JavaScript object,
modelled as a key-ordered association list with integer values; the spread
merge `{...result, ...hookResult}` keeps the left operand's key order,
overriding values from the right and appending its new keys.  A manifest's
`hooks` object maps names to handler functions or numbers (the
`<name>Priority` entries); string handler references resolved through the
plugin instance are not modelled.  `Array.prototype.sort` with comparator
`(a, b) => b.priority - a.priority` is a stable descending sort (ES2019);
`stableSortDesc` is an insertion sort with exactly that semantics. -/

/-- JavaScript object / `Map` lookup on an association list. -/
def alookup {α : Type} : List (String × α) → String → Option α
  | [], _ => none
  | (k, v) :: rest, key => if k = key then some v else alookup rest key

/-- A hook context object. -/
abbrev Ctx : Type := List (String × Int)

/-- Spread merge `{...a, ...b}`. -/
def ctxMerge (a b : Ctx) : Ctx :=
  a.map (fun kv => (kv.1, (alookup b kv.1).getD kv.2)) ++
    b.filter (fun kv => (alookup a kv.1).isNone)

/-- A value in a manifest's `hooks` object: a handler function (returning
the object to merge, or `undefined`) or a priority number. -/
inductive ManifestVal where
  | fn : (Ctx → Option Ctx) → ManifestVal
  | num : Int → ManifestVal

/-- The part of a plugin the hook system sees: its id and `hooks` object. -/
structure PluginHooksDef where
  id : String
  hooks : List (String × ManifestVal)

/-- An entry of a hook slot: `{ pluginId, handler, priority }`; `handler`
is `none` when the manifest value was not a function. -/
structure HookEntry where
  pluginId : String
  handler : Option (Ctx → Option Ctx)
  priority : Int

/-- `String.toUpperCase()` (on the character list, so that it evaluates by
kernel reduction). -/
def upStr (s : String) : String := String.mk (s.data.map Char.toUpper)

/-- The `HOOK_TYPES` constant: uppercase keys to normalised hook names. -/
def HOOK_TYPES_TABLE : List (String × String) :=
  [ ("BEFORE_CYCLE", "beforeCycle"), ("AFTER_CYCLE", "afterCycle"),
    ("BEFORE_TASK", "beforeTask"), ("AFTER_TASK", "afterTask"),
    ("ON_TRIGGER", "onTrigger"), ("ON_ERROR", "onError") ]

/-- The hook containers initialised by the `PluginManager` constructor. -/
def emptyHookTable : List (String × List HookEntry) :=
  [ ("beforeCycle", []), ("afterCycle", []), ("beforeTask", []),
    ("afterTask", []), ("onTrigger", []), ("onError", []) ]

/-- The manifest value stored as an entry's handler (`typeof` check is done
at dispatch: non-functions are never invoked). -/
def manifestHandler : ManifestVal → Option (Ctx → Option Ctx)
  | .fn f => some f
  | .num _ => none

/-- `plugin.hooks[hookType + 'Priority'] || 0`: the priority entry next to
a hook entry, defaulting to 0. -/
def hookPriority (hooks : List (String × ManifestVal)) (key : String) : Int :=
  match alookup hooks (key ++ "Priority") with
  | some (.num n) => n
  | _ => 0

/-- Stable insertion into a descending-priority list: a new entry goes
after all existing entries of equal or higher priority. -/
def insertDesc (h : HookEntry) : List HookEntry → List HookEntry
  | [] => [h]
  | x :: xs => if x.priority < h.priority then h :: x :: xs else x :: insertDesc h xs

/-- Stable sort, descending by priority (the ES2019 semantics of
`hooks.sort((a, b) => b.priority - a.priority)`). -/
def stableSortDesc (l : List HookEntry) : List HookEntry :=
  l.foldl (fun acc h => insertDesc h acc) []

/-- Replaces one slot of the hook table. -/
def updateSlot (table : List (String × List HookEntry)) (key : String)
    (entries : List HookEntry) : List (String × List HookEntry) :=
  table.map fun kv => if kv.1 = key then (kv.1, entries) else kv

/-- `PluginManager.registerPluginHooks`: for each manifest `hooks` entry
whose uppercased key is in `HOOK_TYPES`, append
`{ pluginId, handler, priority }` to the normalised slot and re-sort it
descending by priority. -/
def registerPluginHooksModel (p : PluginHooksDef)
    (table : List (String × List HookEntry)) : List (String × List HookEntry) :=
  p.hooks.foldl
    (fun tbl kv =>
      match alookup HOOK_TYPES_TABLE (upStr kv.1) with
      | none => tbl
      | some normalized =>
        match alookup tbl normalized with
        | none => tbl
        | some entries =>
          updateSlot tbl normalized
            (stableSortDesc (entries ++ [⟨p.id, manifestHandler kv.2, hookPriority p.hooks kv.1⟩])))
    table

/-- `PluginManager.executeHooks`: walks the slot in order, skips plugins
that are not enabled and non-function handlers, invokes each remaining
handler on the running context and spread-merges a returned object into it.
Returns the final context and the invocation order (plugin ids). -/
def executeHooksModel (enabled : List (String × Bool))
    (table : List (String × List HookEntry)) (hookType : String) (ctx : Ctx) :
    Ctx × List String :=
  ((alookup table hookType).getD []).foldl
    (fun acc hk =>
      match alookup enabled hk.pluginId with
      | some true =>
        match hk.handler with
        | some f =>
          match f acc.1 with
          | some r => (ctxMerge acc.1 r, acc.2 ++ [hk.pluginId])
          | none => (acc.1, acc.2 ++ [hk.pluginId])
        | none => acc
      | _ => acc)
    (ctx, [])

/-- Plugin P1: a `beforeCycle` hook of priority 10 returning `{a: 1}`. -/
def hookP1 : PluginHooksDef :=
  ⟨"P1", [("before_cycle", .fn (fun _ => some [("a", 1)])),
          ("before_cyclePriority", .num 10)]⟩

/-- Plugin P2: a `beforeCycle` hook of priority 0 returning `{a: 2, b: 3}`. -/
def hookP2 : PluginHooksDef :=
  ⟨"P2", [("before_cycle", .fn (fun _ => some [("a", 2), ("b", 3)])),
          ("before_cyclePriority", .num 0)]⟩

/-! ### Event bus emission

From the event bus module: `EventBus.emit` against the `listeners` and
`onceListeners` tables (JavaScript `Map<pattern, Set<callback>>`, modelled
as association lists with callback identifiers).  `emit` collects, in
order: the `listeners` entry under the exact event name; every `listeners`
entry whose pattern differs from the name but matches it under
`matchesPattern`; and the `onceListeners` entry under the exact event name
only (the wildcard pass iterates `this.listeners` alone), which is then
deleted.  Invocations are tagged `(isOnce, pattern, callback)`. -/

/-- The invocation list collected by one `emit(n)` call. -/
def emitInvoked (onL onceL : List (String × List Nat)) (n : String) :
    List (Bool × String × Nat) :=
  (match alookup onL n with
    | some hs => hs.map (fun h => (false, n, h))
    | none => []) ++
  (onL.flatMap fun kv =>
    if kv.1 != n && matchesPattern n kv.1 then
      kv.2.map (fun h => (false, kv.1, h))
    else []) ++
  (match alookup onceL n with
    | some hs => hs.map (fun h => (true, n, h))
    | none => [])

/-- The `onceListeners` table after `emit(n)`: the exact-name entry is
deleted. -/
def onceAfterEmit (onceL : List (String × List Nat)) (n : String) :
    List (String × List Nat) :=
  onceL.filter (fun kv => kv.1 != n)

/-! ### Plugin lifecycle

From the plugin system module: the registry `this.plugins` (a `Map` in
insertion order, modelled as a list of records) and the operations `load`,
`enable`, `disable` and `unload`.  Plugins whose module import fails are
never stored, so registry states are Loaded, Enabled or Disabled.  Manifest
reading and validation are collapsed into `load`'s arguments; `onEnable` /
`onDisable` / `onUnload` instance callbacks are modelled as not throwing
and not re-entering the manager.  The source's `enable` recurses through
dependencies with no depth bound; the model passes fuel (`registry size +
1` exceeds any dependency chain, since every dependency is loaded strictly
before its dependent). -/

/-- Registry states a stored plugin can be in. -/
inductive PState where
  | loaded | enabled | disabled
deriving DecidableEq, BEq, Repr

/-- A stored plugin: id, declared dependencies, lifecycle state. -/
structure PluginRec where
  id : String
  deps : List String
  state : PState
deriving DecidableEq, Repr

/-- `this.plugins.get(pid)`. -/
def findP (r : List PluginRec) (pid : String) : Option PluginRec :=
  r.find? (fun p => p.id == pid)

/-- `PluginManager.load`: returns the existing plugin if already loaded;
throws (leaving the registry unchanged) when a declared dependency is not
present; otherwise stores the plugin in state Loaded. -/
def loadOp (r : List PluginRec) (pid : String) (deps : List String) : List PluginRec :=
  if (findP r pid).isSome then r
  else if deps.all (fun d => (findP r d).isSome) then r ++ [⟨pid, deps, .loaded⟩]
  else r

/-- Sets the state of the plugin stored under `pid`. -/
def setPState (r : List PluginRec) (pid : String) (s : PState) : List PluginRec :=
  r.map fun p => if p.id == pid then { p with state := s } else p

/-- `PluginManager.enable` with fuel: a missing plugin throws; an Enabled
plugin is a no-op; otherwise every dependency is enabled first (stopping at
the first failure, keeping the partial mutations), then the plugin itself
is marked Enabled.  The Boolean records whether the call completed. -/
def enableAux : Nat → List PluginRec → String → List PluginRec × Bool
  | 0, r, _ => (r, false)
  | fuel + 1, r, pid =>
    match findP r pid with
    | none => (r, false)
    | some p =>
      if p.state = .enabled then (r, true)
      else
        let res := p.deps.foldl
          (fun acc d => if acc.2 then enableAux fuel acc.1 d else acc) (r, true)
        if res.2 then (setPState res.1 pid .enabled, true) else res

/-- The dependency loop of `enable`, as a named function (definitionally
the fold inside `enableAux`). -/
def enableDepsFold (fuel : Nat) (ds : List String) (acc : List PluginRec × Bool) :
    List PluginRec × Bool :=
  ds.foldl (fun acc d => if acc.2 then enableAux fuel acc.1 d else acc) acc

/-- `PluginManager.enable` at adequate fuel for any reachable registry. -/
def enableOp (r : List PluginRec) (pid : String) : List PluginRec :=
  (enableAux (r.length + 1) r pid).1

/-- `PluginManager.disable`: a missing or non-Enabled plugin is a no-op;
otherwise the plugin is marked Disabled — no check of dependent plugins. -/
def disableOp (r : List PluginRec) (pid : String) : List PluginRec :=
  match findP r pid with
  | none => r
  | some p => if p.state = .enabled then setPState r pid .disabled else r

/-- `PluginManager.unload`: a missing plugin is a no-op; throws (registry
unchanged) while some stored plugin lists `pid` as a dependency; otherwise
removes the plugin. -/
def unloadOp (r : List PluginRec) (pid : String) : List PluginRec :=
  match findP r pid with
  | none => r
  | some _ =>
    if r.any (fun q => q.deps.contains pid) then r
    else r.filter (fun q => q.id != pid)

/-- Registry states reachable by any sequence of `load`, `enable`,
`disable` and `unload` from the empty registry. -/
inductive ReachPM : List PluginRec → Prop where
  | init : ReachPM []
  | load (pid : String) (deps : List String) {r : List PluginRec} :
      ReachPM r → ReachPM (loadOp r pid deps)
  | enable (pid : String) {r : List PluginRec} :
      ReachPM r → ReachPM (enableOp r pid)
  | disable (pid : String) {r : List PluginRec} :
      ReachPM r → ReachPM (disableOp r pid)
  | unload (pid : String) {r : List PluginRec} :
      ReachPM r → ReachPM (unloadOp r pid)

/-- Registry states reachable without the `disable` operation. -/
inductive ReachNoDisable : List PluginRec → Prop where
  | init : ReachNoDisable []
  | load (pid : String) (deps : List String) {r : List PluginRec} :
      ReachNoDisable r → ReachNoDisable (loadOp r pid deps)
  | enable (pid : String) {r : List PluginRec} :
      ReachNoDisable r → ReachNoDisable (enableOp r pid)
  | unload (pid : String) {r : List PluginRec} :
      ReachNoDisable r → ReachNoDisable (unloadOp r pid)

/-- The claimed invariant: every Enabled plugin has every declared
dependency stored and Enabled. -/
def EnabledDepsEnabled (r : List PluginRec) : Prop :=
  ∀ p ∈ r, p.state = .enabled → ∀ d ∈ p.deps, ∃ q ∈ r, q.id = d ∧ q.state = .enabled

/-- Some plugin stored under id `x` is Enabled. -/
def EnabledIn (r : List PluginRec) (x : String) : Prop :=
  ∃ q ∈ r, q.id = x ∧ q.state = .enabled

/-- Two registries carry the same plugins (ids and dependency lists) in the
same order; only lifecycle states may differ. -/
def Keyed (r r2 : List PluginRec) : Prop :=
  r2.map (fun p => (p.id, p.deps)) = r.map (fun p => (p.id, p.deps))

/-- The inductive invariant: the dependency property plus unique ids (the
registry is a `Map`). -/
def InvPM (r : List PluginRec) : Prop :=
  EnabledDepsEnabled r ∧ (r.map (fun p => p.id)).Nodup

/-- Load A, load B depending on A, enable B (which first enables A), then
disable A: B stays Enabled while its dependency A is Disabled. -/
def c3BadState : List PluginRec :=
  disableOp (enableOp (loadOp (loadOp [] "A" []) "B" ["A"]) "B") "A"

/-- The same registry just before the `disable` step. -/
def c3GoodState : List PluginRec :=
  enableOp (loadOp (loadOp [] "A" []) "B" ["A"]) "B"

/-! ## Theorems -/

/-- The clock of `executeTask` advances by the task's duration. -/
theorem executeTask_clock (dur : Task → Nat) (hout : Task → Except String String)
    (t : Nat) (task : Task) : (executeTask dur hout t task).2 = t + dur task := by
  unfold executeTask
  cases hout task <;> rfl

/-- The task loop never moves the clock backwards. -/
theorem runTasks_clock_le (hdm : Nat) (dur : Task → Nat)
    (hout : Task → Except String String) :
    ∀ (tasks : List Task) (t : Nat), t ≤ (runTasks hdm dur hout tasks t).clock := by
  intro tasks
  induction tasks with
  | nil => intro t; simp [runTasks]
  | cons task rest ih =>
    intro t
    simp only [runTasks]
    split
    · exact ih t
    · have h1 := executeTask_clock dur hout t task
      have h2 := ih (executeTask dur hout t task).2
      simp only []
      omega

/-- A gated task's skip entry is in the loop's results. -/
theorem runTasks_skip_mem (hdm : Nat) (dur : Task → Nat)
    (hout : Task → Except String String) :
    ∀ (tasks : List Task) (t : Nat) (task : Task), task ∈ tasks →
      hdm < task.hdmLevel → skipEntry task ∈ (runTasks hdm dur hout tasks t).results := by
  intro tasks
  induction tasks with
  | nil => intro t task h; cases h
  | cons hd rest ih =>
    intro t task hmem hlt
    rcases List.mem_cons.mp hmem with heq | htail
    · subst heq
      simp only [runTasks, if_pos hlt]
      exact List.mem_cons_self _ _
    · simp only [runTasks]
      split
      · exact List.mem_cons_of_mem _ (ih t task htail hlt)
      · exact List.mem_cons_of_mem _ (ih _ task htail hlt)

/-- A gated task's approval event is among the loop's emitted events. -/
theorem runTasks_approval_mem (hdm : Nat) (dur : Task → Nat)
    (hout : Task → Except String String) :
    ∀ (tasks : List Task) (t : Nat) (task : Task), task ∈ tasks →
      hdm < task.hdmLevel →
      (APPROVAL_REQUIRED, task.id) ∈ (runTasks hdm dur hout tasks t).events := by
  intro tasks
  induction tasks with
  | nil => intro t task h; cases h
  | cons hd rest ih =>
    intro t task hmem hlt
    rcases List.mem_cons.mp hmem with heq | htail
    · subst heq
      simp only [runTasks, if_pos hlt]
      exact List.mem_cons_self _ _
    · simp only [runTasks]
      split
      · exact List.mem_cons_of_mem _ (ih t task htail hlt)
      · refine List.mem_cons_of_mem _ (List.mem_append_right _ (ih _ task htail hlt))

/-- Every invoked task id belongs to a battery task that passed the gate. -/
theorem runTasks_invoked_sub (hdm : Nat) (dur : Task → Nat)
    (hout : Task → Except String String) :
    ∀ (tasks : List Task) (t : Nat) (x : String),
      x ∈ (runTasks hdm dur hout tasks t).invoked →
      ∃ u, u ∈ tasks ∧ u.id = x ∧ u.hdmLevel ≤ hdm := by
  intro tasks
  induction tasks with
  | nil => intro t x h; simp [runTasks] at h
  | cons hd rest ih =>
    intro t x hx
    simp only [runTasks] at hx
    split at hx
    · obtain ⟨u, hu, hid, hle⟩ := ih t x hx
      exact ⟨u, List.mem_cons_of_mem _ hu, hid, hle⟩
    · rename_i hgate
      rcases List.mem_cons.mp hx with heq | htail
      · exact ⟨hd, List.mem_cons_self _ _, heq.symm, by omega⟩
      · obtain ⟨u, hu, hid, hle⟩ := ih _ x htail
        exact ⟨u, List.mem_cons_of_mem _ hu, hid, hle⟩

/-- Each fixed battery has pairwise-distinct task ids. -/
theorem battery_ids_nodup (ctype : CycleType) :
    ((getTasksForCycle ctype).map Task.id).Nodup := by
  cases ctype <;> decide

/-- Counterexample to Claim C1 as stated: in a forced monthly run at engine
level 1 the gated tasks are recorded with reason "Requires higher approval
level" (capital R), so no entry carries the claimed reason string
"requires higher approval level"; the claimed report property fails. -/
theorem C1_counterexample :
    gateDemoRun.report.map (c1ReportProperty 1 MONTHLY_TASKS) = some false ∧
    gateDemoRun.report.map
        (fun r => (r.tasks.filter (fun e => e.status == "skipped")).map TaskResult.reason) =
      some (List.replicate 4 (some "Requires higher approval level")) := by
  constructor <;> decide

/-- Claim C1 (amended): during a `runCycle` whose `beforeCycle` hooks do not
cancel it, every battery task `T` with `T.hdmLevel > engine.hdmLevel` is never
handed to the task handler, appears in the report with status `skipped` and
reason "Requires higher approval level" (the source capitalises the first
word), and an `autonomy:approval:required` event is emitted for `T`. -/
theorem C1_approval_gate (state : EngineRunState) (force : Bool) (hdm : Nat)
    (ctype : CycleType) (t0 : Nat) (dur : Task → Nat)
    (hout : Task → Except String String) (task : Task)
    (hGo : state = .running ∨ force = true)
    (hmem : task ∈ getTasksForCycle ctype) (hlt : hdm < task.hdmLevel) :
    ∃ rep, (runCycleModel state force hdm ctype false t0 dur hout).report = some rep ∧
      skipEntry task ∈ rep.tasks ∧
      task.id ∉ (runCycleModel state force hdm ctype false t0 dur hout).invoked ∧
      (APPROVAL_REQUIRED, task.id) ∈ (runCycleModel state force hdm ctype false t0 dur hout).events := by
  have hcond : ¬ (state ≠ EngineRunState.running ∧ force = false) := by
    rcases hGo with h | h
    · intro hc; exact hc.1 h
    · intro hc; rw [h] at hc; exact absurd hc.2 (by decide)
  unfold runCycleModel
  rw [if_neg hcond, if_neg (by simp)]
  refine ⟨_, rfl, ?_, ?_, ?_⟩
  · exact runTasks_skip_mem hdm dur hout _ t0 task hmem hlt
  · intro hin
    obtain ⟨u, hu, hid, hle⟩ := runTasks_invoked_sub hdm dur hout _ t0 task.id hin
    have : u = task :=
      List.inj_on_of_nodup_map (battery_ids_nodup ctype) hu hmem hid
    rw [this] at hle
    omega
  · exact List.mem_cons_of_mem _
      (List.mem_append_left _ (runTasks_approval_mem hdm dur hout _ t0 task hmem hlt))

/-- Witness for C1 at a concrete gated task: the first monthly task
(level 2) under a running engine at level 1. -/
theorem C1_approval_gate_witness :
    "architecture-audit" ∉ (runCycleModel .running false 1 .monthly false 3
        (fun _ => 2) (fun _ => .ok "out")).invoked ∧
      (APPROVAL_REQUIRED, "architecture-audit") ∈ (runCycleModel .running false 1 .monthly false 3
        (fun _ => 2) (fun _ => .ok "out")).events := by
  have h := C1_approval_gate .running false 1 .monthly 3 (fun _ => 2) (fun _ => .ok "out")
    ⟨"architecture-audit", "Full Architecture Audit", 2⟩ (Or.inl rfl) (by decide) (by decide)
  obtain ⟨rep, _, _, h3, h4⟩ := h
  exact ⟨h3, h4⟩

/-- Counterexample to Claim C4 as stated: the report returned when the
`beforeCycle` hooks cancel the cycle has `endTime` absent but status
`cancelled`, not `running`, so "status = Running iff endTime absent" fails. -/
theorem C4_counterexample :
    cancelDemoRun.report.map c4ReportProperty = some false ∧
    cancelDemoRun.report.map CycleReport.status = some "cancelled" ∧
    cancelDemoRun.report.map CycleReport.endTime = some none := by
  refine ⟨?_, ?_, ?_⟩ <;> decide

/-- Claim C4 (amended): in every cycle report produced by `runCycle`,
`endTime`, when present, is ≥ `startTime` and the status is then `completed`
or `completed_with_errors`; a report with `endTime` absent is exactly the
cancellation report, whose status is `cancelled`; a returned report never
has status `running`. -/
theorem C4_report_times (state : EngineRunState) (force : Bool) (hdm : Nat)
    (ctype : CycleType) (cancelled : Bool) (t0 : Nat) (dur : Task → Nat)
    (hout : Task → Except String String) (rep : CycleReport)
    (hrep : (runCycleModel state force hdm ctype cancelled t0 dur hout).report = some rep) :
    (∀ e, rep.endTime = some e →
      rep.startTime ≤ e ∧ (rep.status = "completed" ∨ rep.status = "completed_with_errors")) ∧
    (rep.endTime = none → rep.status = "cancelled") ∧
    rep.status ≠ "running" := by
  unfold runCycleModel at hrep
  split at hrep
  · exact absurd hrep (by simp)
  · split at hrep
    · have hEq := Option.some.inj hrep
      subst hEq
      refine ⟨?_, fun _ => rfl, by simp⟩
      intro e he
      exact absurd he (by simp)
    · have hEq := Option.some.inj hrep
      subst hEq
      refine ⟨?_, ?_, ?_⟩
      · intro e he
        have hclk := Option.some.inj he
        constructor
        · rw [← hclk]
          exact runTasks_clock_le hdm dur hout _ t0
        · show (if (runTasks hdm dur hout (getTasksForCycle ctype) t0).errMsgs.isEmpty
            then "completed" else "completed_with_errors") = "completed" ∨ _
          split
          · exact Or.inl rfl
          · exact Or.inr rfl
      · intro h
        exact absurd h (by simp)
      · show (if (runTasks hdm dur hout (getTasksForCycle ctype) t0).errMsgs.isEmpty
          then "completed" else "completed_with_errors") ≠ "running"
        split <;> decide

/-- Witness for C4 at the concrete cancellation report of a daily run. -/
theorem C4_report_times_witness :
    CycleReport.status ⟨"7", CycleType.daily, 7, none, [], "cancelled", []⟩ ≠ "running" :=
  (C4_report_times .running false 2 .daily true 7 (fun _ => 1) (fun _ => .ok "x")
    ⟨"7", CycleType.daily, 7, none, [], "cancelled", []⟩ (by decide)).2.2

/-- Claim C2: while the engine is running, a registered trigger that matches
the delivered event but whose `hdmLevel` exceeds the engine's is left
unchanged by `processEvent` (visible in the registry, so its `fireCount` is
untouched), an `autonomy:approval:required` event is emitted for it, and no
action is dispatched for it. -/
theorem C2_trigger_gate {δ : Type} (hdm now : Nat) (triggers : List (Trigger δ))
    (evName : String) (evData : δ) (g : Trigger δ)
    (hmem : g ∈ triggers) (hmatch : g.matchesEv evName evData = true)
    (hlt : hdm < g.hdmLevel) :
    procTrigger hdm now evName evData g = g ∧
    g ∈ (processEventModel .running hdm now triggers evName evData).triggers ∧
    (APPROVAL_REQUIRED, g.id) ∈ (processEventModel .running hdm now triggers evName evData).events ∧
    ((triggers.map Trigger.id).Nodup →
      ∀ a ∈ (processEventModel .running hdm now triggers evName evData).actions, a.1 ≠ g.id) := by
  have hproc : procTrigger hdm now evName evData g = g := by
    unfold procTrigger
    rw [if_pos hmatch, if_pos hlt]
  have hrun : ¬ (EngineRunState.running ≠ EngineRunState.running) := fun h => h rfl
  refine ⟨hproc, ?_, ?_, ?_⟩
  · unfold processEventModel
    rw [if_neg hrun]
    exact hproc ▸ List.mem_map_of_mem _ hmem
  · unfold processEventModel
    rw [if_neg hrun]
    refine List.mem_flatMap.mpr ⟨g, hmem, ?_⟩
    rw [hmatch]
    simp only [if_pos hlt, if_true]
    exact List.mem_singleton.mpr rfl
  · intro hnd a ha hid
    unfold processEventModel at ha
    rw [if_neg hrun] at ha
    obtain ⟨u, hu, hau⟩ := List.mem_flatMap.mp ha
    split at hau
    · rename_i hc
      have hau' := List.mem_singleton.mp hau
      have huid : u.id = g.id := by rw [hau'] at hid; exact hid
      have : u = g := List.inj_on_of_nodup_map hnd hu hmem huid
      subst this
      simp only [Bool.and_eq_true, Bool.not_eq_true', decide_eq_false_iff_not] at hc
      exact hc.2 hlt
    · cases hau

/-- Witness for C2: the level-3 demo trigger under a running engine at
level 2 emits an approval event and is not fired. -/
theorem C2_trigger_gate_witness :
    procTrigger 2 5 "x:y" () demoTrigger = demoTrigger ∧
      (APPROVAL_REQUIRED, "t1") ∈ (processEventModel .running 2 5 [demoTrigger] "x:y" ()).events := by
  have h := C2_trigger_gate 2 5 [demoTrigger] "x:y" () demoTrigger
    (List.mem_singleton.mpr rfl) rfl (by decide)
  exact ⟨h.1, h.2.2.1⟩

/-- Every month has at least 28 days. -/
theorem daysInMonth_ge_28 (y m : Nat) : 28 ≤ daysInMonth y m := by
  unfold daysInMonth
  split
  · split <;> omega
  · split <;> omega

/-- Normalisation stops immediately on an in-range day. -/
theorem normDate_stop (fuel y m d : Nat) (hf : 1 ≤ fuel) (hle : d ≤ daysInMonth y m) :
    normDate fuel y m d = (y, m, d) := by
  cases fuel with
  | zero => omega
  | succ n =>
    unfold normDate
    rw [if_pos hle]

/-- `new Date(y, m, d)` with a valid day is that date. -/
theorem mkDate_no_overflow (y m d mi : Nat) (hd1 : 1 ≤ d) (hle : d ≤ daysInMonth y m) :
    mkDate y m d mi = ⟨y, m, d, mi⟩ := by
  unfold mkDate
  rw [normDate_stop d y m d hd1 hle]

/-- `new Date(y, m, d)` with a day exceeding the month's length by at most
28 rolls the overflow into the following month. -/
theorem mkDate_overflow (y m d mi : Nat) (hover : daysInMonth y m < d)
    (hbound : d ≤ daysInMonth y m + 28) :
    mkDate y m d mi = ⟨(nextMonth y m).1, (nextMonth y m).2, d - daysInMonth y m, mi⟩ := by
  have hge := daysInMonth_ge_28 y m
  have hge2 := daysInMonth_ge_28 (nextMonth y m).1 (nextMonth y m).2
  unfold mkDate
  cases d with
  | zero => omega
  | succ n =>
    unfold normDate
    rw [if_neg (by omega)]
    rw [normDate_stop n _ _ _ (by omega) (by omega)]

/-- Counterexample to Claim C5 as stated: with the weekly schedule Sunday
03:00 and `now` a Sunday at midnight (so `now` falls on the configured
`dayOfWeek` earlier than `(hour, minute)`), the computed run is seven days
out instead of the same day: the `|| 7` in
`(dayOfWeek - getDay() + 7) % 7 || 7` turns the same-day offset 0 into 7. -/
theorem C5_counterexample :
    (7 : Nat) % 7 = 0 ∧ (0 : Nat) < 3 * 60 + 0 ∧
    weeklyNextRun ⟨0, 3, 0⟩ ⟨7, 0⟩ = ⟨14, 180⟩ ∧
    (weeklyNextRun ⟨0, 3, 0⟩ ⟨7, 0⟩).day ≠ (WeekTime.day ⟨7, 0⟩) := by
  refine ⟨rfl, by decide, by decide, by decide⟩

/-- Claim C5 (amended): the weekly scheduler always picks a strictly later
day of the configured weekday at `(hour, minute)`, at most 7 days ahead;
whenever `now` already falls on the configured `dayOfWeek` — even before
`(hour, minute)` — the run is scheduled exactly 7 days out, never the same
day, and the trailing `+7 days if ≤ now` adjustment never fires. -/
theorem C5_weekly_schedule (s : WeeklySchedule) (now : WeekTime)
    (hdow : s.dayOfWeek < 7) :
    (weeklyNextRun s now).day % 7 = s.dayOfWeek ∧
    (weeklyNextRun s now).minute = s.hour * 60 + s.minute ∧
    now.day < (weeklyNextRun s now).day ∧
    (weeklyNextRun s now).day ≤ now.day + 7 ∧
    (now.day % 7 = s.dayOfWeek → (weeklyNextRun s now).day = now.day + 7) := by
  simp only [weeklyNextRun]
  have h7 : now.day % 7 < 7 := Nat.mod_lt _ (by decide)
  have hrawlt : (s.dayOfWeek + 7 - now.day % 7) % 7 < 7 := Nat.mod_lt _ (by decide)
  have hd1 : 1 ≤ (if (s.dayOfWeek + 7 - now.day % 7) % 7 = 0 then 7
      else (s.dayOfWeek + 7 - now.day % 7) % 7) := by
    split <;> omega
  have hcond : ¬ (WeekTime.leB
      ⟨now.day + (if (s.dayOfWeek + 7 - now.day % 7) % 7 = 0 then 7
        else (s.dayOfWeek + 7 - now.day % 7) % 7), s.hour * 60 + s.minute⟩ now = true) := by
    revert hd1
    generalize (if (s.dayOfWeek + 7 - now.day % 7) % 7 = 0 then 7
      else (s.dayOfWeek + 7 - now.day % 7) % 7) = D
    intro hd1
    unfold WeekTime.leB
    simp only [decide_eq_true_eq]
    omega
  rw [if_neg hcond]
  refine ⟨?_, rfl, ?_, ?_, ?_⟩
  · dsimp only
    split <;> rename_i hz
    · omega
    · omega
  · dsimp only
    split <;> omega
  · dsimp only
    split <;> omega
  · intro hsame
    dsimp only
    have hz : (s.dayOfWeek + 7 - now.day % 7) % 7 = 0 := by omega
    rw [if_pos hz]

/-- Witness for C5: schedule Tuesday 10:30, `now` a Tuesday at midnight
(day 9): the run lands 7 days later. -/
theorem C5_weekly_schedule_witness :
    (weeklyNextRun ⟨2, 10, 30⟩ ⟨9, 0⟩).day = 9 + 7 :=
  (C5_weekly_schedule ⟨2, 10, 30⟩ ⟨9, 0⟩ (by decide)).2.2.2.2 (by decide)

/-- Counterexample to Claim C6 as stated: monthly schedule day 30 at 04:00
with `now` on 1 February 2025 (a 28-day month): the computed fire instant is
2 March, i.e. the day overflow rolls into the following month instead of
rounding down to 28 February. -/
theorem C6_counterexample :
    daysInMonth 2025 1 = 28 ∧
    monthlyNextRun ⟨30, 4, 0⟩ ⟨2025, 1, 1, 0⟩ = ⟨2025, 2, 2, 240⟩ ∧
    monthlyNextRun ⟨30, 4, 0⟩ ⟨2025, 1, 1, 0⟩ ≠ ⟨2025, 1, 28, 240⟩ := by
  refine ⟨by decide, by decide, by decide⟩

/-- Claim C6 (amended): the monthly scheduler targets the configured
`dayOfMonth` at `(hour, minute)` in the current month, moving to the next
month when that instant is ≤ now; but when the target month has no such day
the instant is not rounded down: JavaScript date normalisation rolls the
overflow into the following month (day 30 in February yields 1 or 2
March). -/
theorem C6_monthly_schedule (s : MonthlySchedule) (now : MDate)
    (hmonth : now.month < 12) (hd1 : 1 ≤ s.dayOfMonth) :
    (s.dayOfMonth ≤ daysInMonth now.year now.month →
      monthlyNextRun s now =
        (if (MDate.leB ⟨now.year, now.month, s.dayOfMonth, s.hour * 60 + s.minute⟩ now)
          then addOneMonth ⟨now.year, now.month, s.dayOfMonth, s.hour * 60 + s.minute⟩
          else ⟨now.year, now.month, s.dayOfMonth, s.hour * 60 + s.minute⟩)) ∧
    (daysInMonth now.year now.month < s.dayOfMonth →
      s.dayOfMonth ≤ daysInMonth now.year now.month + 28 →
      monthlyNextRun s now =
        ⟨(nextMonth now.year now.month).1, (nextMonth now.year now.month).2,
          s.dayOfMonth - daysInMonth now.year now.month, s.hour * 60 + s.minute⟩) := by
  constructor
  · intro hle
    simp only [monthlyNextRun]
    rw [mkDate_no_overflow now.year now.month s.dayOfMonth _ hd1 hle]
  · intro hover hbound
    simp only [monthlyNextRun]
    rw [mkDate_overflow now.year now.month s.dayOfMonth _ hover hbound]
    have hge := daysInMonth_ge_28 now.year now.month
    have hcond : ¬ (MDate.leB
        ⟨(nextMonth now.year now.month).1, (nextMonth now.year now.month).2,
          s.dayOfMonth - daysInMonth now.year now.month, s.hour * 60 + s.minute⟩ now = true) := by
      by_cases h11 : now.month = 11
      · simp only [MDate.leB, nextMonth, if_pos h11, decide_eq_true_eq]
        omega
      · simp only [MDate.leB, nextMonth, if_neg h11, decide_eq_true_eq]
        omega
    rw [if_neg hcond]

/-- Witness for C6: day 15 at 04:00 from 1 February 2025 schedules
15 February 2025 04:00. -/
theorem C6_monthly_schedule_witness :
    monthlyNextRun ⟨15, 4, 0⟩ ⟨2025, 1, 1, 0⟩ = ⟨2025, 1, 15, 240⟩ := by
  have h := (C6_monthly_schedule ⟨15, 4, 0⟩ ⟨2025, 1, 1, 0⟩ (by decide) (by decide)).1 (by decide)
  rw [h]
  decide

/-- Counterexample to Claim C7 as stated: save from a running engine at
approval level 3 holding the four default triggers plus a fired custom
trigger; re-initialising a fresh engine over that state restores neither the
approval level (2, the constructor default), nor the runtime state
(stopped), nor the trigger registry (only the four freshly registered
defaults). -/
theorem C7_counterexample :
    (saveStateModel c7Engine).hdmLevel = 3 ∧
    (initEngineModel none (some (saveStateModel c7Engine))).hdmLevel = 2 ∧
    (saveStateModel c7Engine).state = .running ∧
    (initEngineModel none (some (saveStateModel c7Engine))).state = .stopped ∧
    (initEngineModel none (some (saveStateModel c7Engine))).triggers.map Trigger.toJSON ≠
      (saveStateModel c7Engine).triggers := by
  refine ⟨rfl, rfl, rfl, rfl, ?_⟩
  decide

/-- Claim C7 (amended): for every engine state written by `saveState`,
re-initialising a fresh engine over it restores exactly `lastCycleRun` and
the (last-10) `cycleHistory` of the snapshot; the approval level and runtime
state come from the constructor (not the file), and the trigger registry
holds the freshly registered default triggers instead of the saved
projections. -/
theorem C7_initialize_restores {δ : Type} (optHdm : Option Nat) (e : EngineModel δ) :
    (initEngineModel optHdm (some (saveStateModel e))).lastCycleRun =
      (saveStateModel e).lastCycleRun ∧
    (initEngineModel optHdm (some (saveStateModel e))).cycleHistory =
      (saveStateModel e).cycleHistory ∧
    (initEngineModel optHdm (some (saveStateModel e))).triggers = defaultTriggers ∧
    (initEngineModel optHdm (some (saveStateModel e))).hdmLevel = constructorHdmLevel optHdm ∧
    (initEngineModel optHdm (some (saveStateModel e))).state = .stopped :=
  ⟨rfl, rfl, rfl, rfl, rfl⟩

/-- Membership in an `insertDesc` result. -/
theorem mem_insertDesc (h y : HookEntry) :
    ∀ l, y ∈ insertDesc h l ↔ y = h ∨ y ∈ l := by
  intro l
  induction l with
  | nil => simp [insertDesc]
  | cons x xs ih =>
    unfold insertDesc
    split
    · simp [List.mem_cons]
    · simp only [List.mem_cons, ih]
      tauto

/-- `insertDesc` preserves descending priority order. -/
theorem insertDesc_sorted (h : HookEntry) (l : List HookEntry)
    (hs : l.Pairwise (fun a b => b.priority ≤ a.priority)) :
    (insertDesc h l).Pairwise (fun a b => b.priority ≤ a.priority) := by
  induction l with
  | nil => simp [insertDesc]
  | cons x xs ih =>
    rcases List.pairwise_cons.mp hs with ⟨hx, hxs⟩
    unfold insertDesc
    split
    · rename_i hlt
      refine List.pairwise_cons.mpr ⟨?_, hs⟩
      intro y hy
      rcases List.mem_cons.mp hy with rfl | hmem
      · omega
      · have := hx y hmem
        omega
    · rename_i hge
      refine List.pairwise_cons.mpr ⟨?_, ih hxs⟩
      intro y hy
      rcases (mem_insertDesc h y xs).mp hy with rfl | hmem
      · omega
      · exact hx y hmem

/-- `stableSortDesc` always yields a descending-priority list. -/
theorem stableSortDesc_sorted (l : List HookEntry) :
    (stableSortDesc l).Pairwise (fun a b => b.priority ≤ a.priority) := by
  suffices h : ∀ acc : List HookEntry,
      acc.Pairwise (fun a b => b.priority ≤ a.priority) →
      (l.foldl (fun acc h => insertDesc h acc) acc).Pairwise
        (fun a b => b.priority ≤ a.priority) by
    exact h [] List.Pairwise.nil
  induction l with
  | nil => intro acc hacc; exact hacc
  | cons x xs ih =>
    intro acc hacc
    exact ih _ (insertDesc_sorted x acc hacc)

/-- Claim C9: every hook slot written by registration is sorted descending
by priority (`stableSortDesc`, the stable sort the source's
`sort((a, b) => b.priority - a.priority)` performs, always yields descending
order, ties keeping insertion order); concretely, with Enabled plugins P1
(`beforeCycle` priority 10 returning `{a: 1}`) and P2 (priority 0 returning
`{a: 2, b: 3}`), dispatch from the empty context runs P1 then P2 — in either
registration order — and produces the final context `{a: 2, b: 3}` by shallow
merge with later hooks overriding earlier keys. -/
theorem C9_hook_dispatch :
    (∀ l : List HookEntry,
      (stableSortDesc l).Pairwise (fun a b => b.priority ≤ a.priority)) ∧
    executeHooksModel [("P1", true), ("P2", true)]
        (registerPluginHooksModel hookP1 (registerPluginHooksModel hookP2 emptyHookTable))
        "beforeCycle" [] = ([("a", 2), ("b", 3)], ["P1", "P2"]) ∧
    executeHooksModel [("P1", true), ("P2", true)]
        (registerPluginHooksModel hookP2 (registerPluginHooksModel hookP1 emptyHookTable))
        "beforeCycle" [] = ([("a", 2), ("b", 3)], ["P1", "P2"]) :=
  ⟨stableSortDesc_sorted, rfl, rfl⟩

/-- On a table with pairwise-distinct keys, `alookup` finds any member. -/
theorem alookup_of_mem {α : Type} (l : List (String × α)) (k : String) (v : α)
    (hnd : (l.map Prod.fst).Nodup) (hmem : (k, v) ∈ l) : alookup l k = some v := by
  induction l with
  | nil => cases hmem
  | cons kv rest ih =>
    obtain ⟨k', v'⟩ := kv
    simp only [List.map_cons, List.nodup_cons] at hnd
    rcases List.mem_cons.mp hmem with heq | hmem2
    · injection heq with hk hv
      subst hk
      subst hv
      simp [alookup]
    · have hk : k' ≠ k := by
        intro hkk
        subst hkk
        exact hnd.1 (List.mem_map_of_mem Prod.fst hmem2)
      simp only [alookup, if_neg hk]
      exact ih hnd.2 hmem2

/-- `splitOnStar` never returns the empty segment list. -/
theorem splitOnStar_ne_nil : ∀ l : List Char, splitOnStar l ≠ [] := by
  intro l
  cases l with
  | nil => simp [splitOnStar]
  | cons c cs =>
    unfold splitOnStar
    split
    · simp
    · split <;> simp

/-- Re-joining the `*`-split segments recovers the pattern. -/
theorem joinStar_splitOnStar : ∀ l : List Char, joinStar (splitOnStar l) = l := by
  intro l
  induction l with
  | nil => rfl
  | cons c cs ih =>
    unfold splitOnStar
    split
    · rename_i hc
      subst hc
      cases hsc : splitOnStar cs with
      | nil => exact absurd hsc (splitOnStar_ne_nil cs)
      | cons s rest =>
        rw [hsc] at ih
        show joinStar ([] :: s :: rest) = _
        show [] ++ '*' :: joinStar (s :: rest) = _
        rw [ih]
        rfl
    · cases hsc : splitOnStar cs with
      | nil => exact absurd hsc (splitOnStar_ne_nil cs)
      | cons s rest =>
        rw [hsc] at ih
        show joinStar ((c :: s) :: rest) = c :: cs
        cases rest with
        | nil =>
          show c :: s = c :: cs
          rw [show s = cs from ih]
        | cons s2 rest2 =>
          show (c :: s) ++ '*' :: joinStar (s2 :: rest2) = c :: cs
          rw [← ih]
          rfl

/-- Any segment list matches its own joined form after an arbitrary gap. -/
theorem gapMatch_self : ∀ (segs : List (List Char)) (pre : List Char), segs ≠ [] →
    gapMatch segs (pre ++ joinStar segs) = true := by
  intro segs
  induction segs with
  | nil => intro pre hne; exact absurd rfl hne
  | cons s rest ih =>
    intro pre _
    cases rest with
    | nil =>
      show List.isSuffixOf s (pre ++ joinStar [s]) = true
      exact (List.isSuffixOf_iff_suffix).mpr (List.suffix_append pre s)
    | cons s2 rest2 =>
      apply List.any_eq_true.mpr
      refine ⟨pre.length, List.mem_range.mpr ?_, ?_⟩
      · rw [List.length_append]
        omega
      · rw [List.drop_left pre _]
        show (s.isPrefixOf (s ++ '*' :: joinStar (s2 :: rest2)) &&
          gapMatch (s2 :: rest2) ((s ++ '*' :: joinStar (s2 :: rest2)).drop s.length)) = true
        rw [Bool.and_eq_true]
        constructor
        · exact (List.isPrefixOf_iff_prefix).mpr (List.prefix_append s _)
        · rw [List.drop_left]
          exact ih ['*'] (by simp)

/-- Every event name matches itself as a pattern. -/
theorem matchesPattern_self (n : String) : matchesPattern n n = true := by
  unfold matchesPattern
  split
  · rfl
  · split
    · simp
    · cases hsplit : splitOnStar n.toList with
      | nil => exact absurd hsplit (splitOnStar_ne_nil _)
      | cons s rest =>
        show (s.isPrefixOf n.toList && gapMatch rest (n.toList.drop s.length)) = true
        have hjoin : joinStar (s :: rest) = n.toList := by
          rw [← hsplit]
          exact joinStar_splitOnStar n.toList
        cases rest with
        | nil =>
          have hs : s = n.toList := hjoin
          rw [← hs]
          rw [Bool.and_eq_true]
          constructor
          · exact (List.isPrefixOf_iff_prefix).mpr (List.prefix_refl s)
          · rw [List.drop_length]
            rfl
        | cons s2 rest2 =>
          rw [← hjoin]
          show (s.isPrefixOf (s ++ '*' :: joinStar (s2 :: rest2)) &&
            gapMatch (s2 :: rest2) ((s ++ '*' :: joinStar (s2 :: rest2)).drop s.length)) = true
          rw [Bool.and_eq_true]
          constructor
          · exact (List.isPrefixOf_iff_prefix).mpr (List.prefix_append s _)
          · rw [List.drop_left]
            exact gapMatch_self (s2 :: rest2) ['*'] (by simp)

/-- Counterexample to Claim C8 as stated: a `once` subscription on the
wildcard pattern `autonomy:*` is never invoked for the matching event
`autonomy:cycle:start`, because `emit` consults `onceListeners` only under
the exact event name. -/
theorem C8_counterexample :
    matchesPattern "autonomy:cycle:start" "autonomy:*" = true ∧
    emitInvoked [] [("autonomy:*", [0])] "autonomy:cycle:start" = [] := by
  constructor
  · decide
  · rfl

/-- Claim C8 (amended): a subscription registered via `on` with pattern `p`
is invoked by `emit(n)` exactly when `n` matches `p` under the
exact-or-wildcard rule; a subscription registered via `once`, however, is
invoked exactly when `n` equals `p` literally — `once` subscriptions with a
`*` wildcard in their pattern are never matched by other names. -/
theorem C8_emit_match (onL onceL : List (String × List Nat)) (n p : String)
    (hs : List Nat) (h : Nat)
    (hnd : (onL.map Prod.fst).Nodup) (hnd2 : (onceL.map Prod.fst).Nodup) :
    ((p, hs) ∈ onL → h ∈ hs →
      ((false, p, h) ∈ emitInvoked onL onceL n ↔ matchesPattern n p = true)) ∧
    ((p, hs) ∈ onceL → h ∈ hs →
      ((true, p, h) ∈ emitInvoked onL onceL n ↔ p = n)) := by
  constructor
  · intro hmem hh
    constructor
    · intro hin
      unfold emitInvoked at hin
      rcases List.mem_append.mp hin with hin1 | hinC
      · rcases List.mem_append.mp hin1 with hinA | hinB
        · cases halk : alookup onL n with
          | none => rw [halk] at hinA; cases hinA
          | some hs2 =>
            rw [halk] at hinA
            obtain ⟨h2, _, heq⟩ := List.mem_map.mp hinA
            have hpn : p = n := (congrArg (fun x => x.2.1) heq).symm
            rw [hpn]
            exact matchesPattern_self n
        · obtain ⟨kv, _, hin2⟩ := List.mem_flatMap.mp hinB
          split at hin2
          · rename_i hcond
            obtain ⟨h2, _, heq⟩ := List.mem_map.mp hin2
            have hkp : kv.1 = p := congrArg (fun x => x.2.1) heq
            rw [← hkp]
            rw [Bool.and_eq_true] at hcond
            exact hcond.2
          · cases hin2
      · cases halk : alookup onceL n with
        | none => rw [halk] at hinC; cases hinC
        | some hs2 =>
          rw [halk] at hinC
          obtain ⟨h2, _, heq⟩ := List.mem_map.mp hinC
          exact Bool.noConfusion (congrArg Prod.fst heq)
    · intro hmatch
      unfold emitInvoked
      by_cases hpn : p = n
      · subst hpn
        refine List.mem_append.mpr (Or.inl (List.mem_append.mpr (Or.inl ?_)))
        rw [alookup_of_mem onL p hs hnd hmem]
        exact List.mem_map.mpr ⟨h, hh, rfl⟩
      · refine List.mem_append.mpr (Or.inl (List.mem_append.mpr (Or.inr ?_)))
        refine List.mem_flatMap.mpr ⟨(p, hs), hmem, ?_⟩
        have hcond : ((p != n) && matchesPattern n p) = true := by
          rw [Bool.and_eq_true]
          exact ⟨bne_iff_ne.mpr hpn, hmatch⟩
        rw [if_pos hcond]
        exact List.mem_map.mpr ⟨h, hh, rfl⟩
  · intro hmem hh
    constructor
    · intro hin
      unfold emitInvoked at hin
      rcases List.mem_append.mp hin with hin1 | hinC
      · rcases List.mem_append.mp hin1 with hinA | hinB
        · cases halk : alookup onL n with
          | none => rw [halk] at hinA; cases hinA
          | some hs2 =>
            rw [halk] at hinA
            obtain ⟨h2, _, heq⟩ := List.mem_map.mp hinA
            exact Bool.noConfusion (congrArg Prod.fst heq)
        · obtain ⟨kv, _, hin2⟩ := List.mem_flatMap.mp hinB
          split at hin2
          · obtain ⟨h2, _, heq⟩ := List.mem_map.mp hin2
            exact Bool.noConfusion (congrArg Prod.fst heq)
          · cases hin2
      · cases halk : alookup onceL n with
        | none => rw [halk] at hinC; cases hinC
        | some hs2 =>
          rw [halk] at hinC
          obtain ⟨h2, _, heq⟩ := List.mem_map.mp hinC
          exact (congrArg (fun x => x.2.1) heq).symm
    · intro hpn
      subst hpn
      unfold emitInvoked
      refine List.mem_append.mpr (Or.inr ?_)
      rw [alookup_of_mem onceL p hs hnd2 hmem]
      exact List.mem_map.mpr ⟨h, hh, rfl⟩

/-- Witness for C8: an `on` subscription on `autonomy:*` is invoked for
`autonomy:cycle:start`. -/
theorem C8_emit_match_witness :
    (false, "autonomy:*", 1) ∈ emitInvoked [("autonomy:*", [1])] [] "autonomy:cycle:start" := by
  have h := C8_emit_match [("autonomy:*", [1])] [] "autonomy:cycle:start" "autonomy:*"
    [1] 1 (by simp) (by simp)
  exact (h.1 (List.mem_singleton.mpr rfl) (List.mem_singleton.mpr rfl)).mpr (by decide)

/-- A `findP` hit is a member with the looked-up id. -/
theorem findP_some {r : List PluginRec} {pid : String} {p : PluginRec}
    (h : findP r pid = some p) : p ∈ r ∧ p.id = pid := by
  unfold findP at h
  have h2 := List.find?_some h
  have h3 : (p.id == pid) = true := h2
  exact ⟨List.mem_of_find?_eq_some h, eq_of_beq h3⟩

/-- A `findP` miss means no member has the looked-up id. -/
theorem findP_none {r : List PluginRec} {pid : String} (h : findP r pid = none) :
    ∀ p ∈ r, p.id ≠ pid := by
  intro p hp
  have := List.find?_eq_none.mp h p hp
  simpa using this

/-- `Keyed` is transitive. -/
theorem keyed_trans {a b c : List PluginRec} (h1 : Keyed a b) (h2 : Keyed b c) :
    Keyed a c :=
  h2.trans h1

/-- `Keyed` is symmetric. -/
theorem keyed_symm {a b : List PluginRec} (h : Keyed a b) : Keyed b a :=
  h.symm

/-- `Keyed` registries have the same id list. -/
theorem keyed_ids {r r2 : List PluginRec} (h : Keyed r r2) :
    r2.map (fun p => p.id) = r.map (fun p => p.id) := by
  have h2 := congrArg (List.map Prod.fst) h
  simpa [List.map_map, Function.comp] using h2

/-- Every member of a `Keyed` counterpart has a twin with the same id and
dependencies. -/
theorem keyed_entry {r r2 : List PluginRec} (h : Keyed r r2) {q : PluginRec}
    (hq : q ∈ r2) : ∃ u ∈ r, u.id = q.id ∧ u.deps = q.deps := by
  have hmem : (q.id, q.deps) ∈ r.map (fun p => (p.id, p.deps)) := by
    rw [← h]
    exact List.mem_map_of_mem _ hq
  obtain ⟨u, hu, heq⟩ := List.mem_map.mp hmem
  exact ⟨u, hu, congrArg Prod.fst heq, congrArg Prod.snd heq⟩

/-- With pairwise-distinct ids, members are determined by their id. -/
theorem nodup_id_unique {r : List PluginRec}
    (hnd : (r.map (fun p => p.id)).Nodup) {a b : PluginRec}
    (ha : a ∈ r) (hb : b ∈ r) (hid : a.id = b.id) : a = b :=
  List.inj_on_of_nodup_map hnd ha hb hid

/-- `setPState` keeps ids and dependency lists. -/
theorem setPState_keyed (r : List PluginRec) (pid : String) (s : PState) :
    Keyed r (setPState r pid s) := by
  unfold Keyed setPState
  rw [List.map_map]
  induction r with
  | nil => rfl
  | cons p rest ih =>
    simp only [List.map_cons] at ih ⊢
    rw [List.cons_eq_cons]
    refine ⟨?_, ih⟩
    by_cases h : (p.id == pid) = true <;> simp [h, Function.comp]

/-- Marking some plugin Enabled never un-enables another id. -/
theorem setPState_mono {r : List PluginRec} {pid x : String}
    (h : EnabledIn r x) : EnabledIn (setPState r pid .enabled) x := by
  obtain ⟨q, hq, hid, hst⟩ := h
  by_cases hqp : (q.id == pid) = true
  · exact ⟨{ q with state := .enabled },
      List.mem_map.mpr ⟨q, hq, by simp [hqp]⟩, hid, rfl⟩
  · exact ⟨q, List.mem_map.mpr ⟨q, hq, by simp [hqp]⟩, hid, hst⟩

/-- `setPState _ pid .enabled` leaves `pid` Enabled when it is stored. -/
theorem setPState_enables {r : List PluginRec} {pid : String} {q : PluginRec}
    (hq : q ∈ r) (hid : q.id = pid) :
    EnabledIn (setPState r pid .enabled) pid :=
  ⟨{ q with state := .enabled },
    List.mem_map.mpr ⟨q, hq, by simp [hid]⟩, hid, rfl⟩

/-- The dependency fold is stuck on a failed accumulator. -/
theorem enableDepsFold_false (fuel : Nat) :
    ∀ (ds : List String) (r0 : List PluginRec),
      enableDepsFold fuel ds (r0, false) = (r0, false) := by
  intro ds
  induction ds with
  | nil => intro r0; rfl
  | cons d ds ih => intro r0; exact ih r0

/-- Unfolding equation of `enableAux` at positive fuel. -/
theorem enableAux_succ (fuel : Nat) (r : List PluginRec) (pid : String) :
    enableAux (fuel + 1) r pid =
      (match findP r pid with
      | none => (r, false)
      | some p =>
        if p.state = .enabled then (r, true)
        else
          if (enableDepsFold fuel p.deps (r, true)).2 then
            (setPState (enableDepsFold fuel p.deps (r, true)).1 pid .enabled, true)
          else enableDepsFold fuel p.deps (r, true)) := rfl

/-- The dependency fold preserves the invariant and the registry shape,
only ever adds Enabled plugins, and on success leaves every processed
dependency Enabled. -/
theorem enableDepsFold_inv (fuel : Nat)
    (ihfuel : ∀ (pid : String) (r : List PluginRec), InvPM r →
      InvPM (enableAux fuel r pid).1 ∧ Keyed r (enableAux fuel r pid).1 ∧
      (∀ x, EnabledIn r x → EnabledIn (enableAux fuel r pid).1 x) ∧
      ((enableAux fuel r pid).2 = true → EnabledIn (enableAux fuel r pid).1 pid)) :
    ∀ (ds : List String) (r0 : List PluginRec), InvPM r0 →
      InvPM (enableDepsFold fuel ds (r0, true)).1 ∧
      Keyed r0 (enableDepsFold fuel ds (r0, true)).1 ∧
      (∀ x, EnabledIn r0 x → EnabledIn (enableDepsFold fuel ds (r0, true)).1 x) ∧
      ((enableDepsFold fuel ds (r0, true)).2 = true →
        ∀ d ∈ ds, EnabledIn (enableDepsFold fuel ds (r0, true)).1 d) := by
  intro ds
  induction ds with
  | nil =>
    intro r0 h0
    exact ⟨h0, rfl, fun x hx => hx, fun _ d hd => absurd hd (List.not_mem_nil d)⟩
  | cons d ds ihds =>
    intro r0 h0
    obtain ⟨hi1, hk1, hm1, hs1⟩ := ihfuel d r0 h0
    have hstep : enableDepsFold fuel (d :: ds) (r0, true) =
        enableDepsFold fuel ds (enableAux fuel r0 d) := rfl
    rw [hstep]
    cases hb : (enableAux fuel r0 d).2 with
    | false =>
      have hpair : enableAux fuel r0 d = ((enableAux fuel r0 d).1, false) := by
        rw [← hb]
      rw [hpair, enableDepsFold_false]
      exact ⟨hi1, hk1, hm1, fun hfalse => Bool.noConfusion hfalse⟩
    | true =>
      have hpair : enableAux fuel r0 d = ((enableAux fuel r0 d).1, true) := by
        rw [← hb]
      rw [hpair]
      obtain ⟨hi2, hk2, hm2, hs2⟩ := ihds (enableAux fuel r0 d).1 hi1
      refine ⟨hi2, keyed_trans hk1 hk2, fun x hx => hm2 x (hm1 x hx), ?_⟩
      intro hsucc d2 hd2
      rcases List.mem_cons.mp hd2 with rfl | hd3
      · exact hm2 d2 (hs1 hb)
      · exact hs2 hsucc d2 hd3

/-- `enableAux` preserves the invariant and the registry shape, only ever
adds Enabled plugins, and on success leaves its argument Enabled. -/
theorem enableAux_inv : ∀ (fuel : Nat) (pid : String) (r : List PluginRec), InvPM r →
    InvPM (enableAux fuel r pid).1 ∧ Keyed r (enableAux fuel r pid).1 ∧
    (∀ x, EnabledIn r x → EnabledIn (enableAux fuel r pid).1 x) ∧
    ((enableAux fuel r pid).2 = true → EnabledIn (enableAux fuel r pid).1 pid) := by
  intro fuel
  induction fuel with
  | zero =>
    intro pid r hinv
    exact ⟨hinv, rfl, fun x hx => hx, fun h => Bool.noConfusion h⟩
  | succ fuel ih =>
    intro pid r hinv
    rw [enableAux_succ fuel r pid]
    cases hf : findP r pid with
    | none =>
      exact ⟨hinv, rfl, fun x hx => hx, fun h => Bool.noConfusion h⟩
    | some p =>
      dsimp only
      by_cases hen : p.state = .enabled
      · rw [if_pos hen]
        obtain ⟨hp, hpid⟩ := findP_some hf
        exact ⟨hinv, rfl, fun x hx => hx, fun _ => ⟨p, hp, hpid, hen⟩⟩
      · rw [if_neg hen]
        obtain ⟨hi, hk, hm, hs⟩ := enableDepsFold_inv fuel ih p.deps r hinv
        cases hb : (enableDepsFold fuel p.deps (r, true)).2 with
        | false =>
          rw [if_neg (show ¬ (false = true) from fun h => Bool.noConfusion h)]
          exact ⟨hi, hk, hm, fun h => Bool.noConfusion (hb ▸ h)⟩
        | true =>
          rw [if_pos rfl]
          obtain ⟨hp, hpid⟩ := findP_some hf
          refine ⟨⟨?_, ?_⟩, ?_, ?_, ?_⟩
          · -- the dependency property after marking pid Enabled
            intro p2 hp2 hen2 d hd
            obtain ⟨q, hq, hform⟩ := List.mem_map.mp hp2
            by_cases hqp : (q.id == pid) = true
            · have hform2 : { q with state := PState.enabled } = p2 := by
                simpa [hqp] using hform
              have hqid : q.id = pid := eq_of_beq hqp
              obtain ⟨u, hu, huid, hudeps⟩ := keyed_entry hk hq
              have hup : u = p :=
                nodup_id_unique hinv.2 hu hp (by rw [huid, hqid, hpid])
              have hdp : d ∈ p.deps := by
                rw [← hup, hudeps]
                have hdeq : p2.deps = q.deps := by rw [← hform2]
                rw [← hdeq]
                exact hd
              exact setPState_mono (hs hb d hdp)
            · have hform2 : q = p2 := by simpa [hqp] using hform
              subst hform2
              exact setPState_mono (hi.1 q hq hen2 d hd)
          · -- unique ids survive the state change
            rw [keyed_ids (setPState_keyed (enableDepsFold fuel p.deps (r, true)).1 pid .enabled)]
            rw [keyed_ids hk]
            exact hinv.2
          · exact keyed_trans hk
              (setPState_keyed (enableDepsFold fuel p.deps (r, true)).1 pid .enabled)
          · exact fun x hx => setPState_mono (hm x hx)
          · intro _
            obtain ⟨q, hq, hqid, _⟩ := keyed_entry (keyed_symm hk) hp
            exact setPState_enables hq (by rw [hqid, hpid])

/-- `load` preserves the invariant: the new plugin is only Loaded, and its
id was checked fresh. -/
theorem loadOp_inv (pid : String) (deps : List String) {r : List PluginRec}
    (h : InvPM r) : InvPM (loadOp r pid deps) := by
  unfold loadOp
  split
  · exact h
  · rename_i hnot
    split
    · constructor
      · intro p hp hen d hd
        rcases List.mem_append.mp hp with hp1 | hp2
        · obtain ⟨q, hq, hqid, hqen⟩ := h.1 p hp1 hen d hd
          exact ⟨q, List.mem_append_left _ hq, hqid, hqen⟩
        · have hpe : p = ⟨pid, deps, .loaded⟩ := List.mem_singleton.mp hp2
          rw [hpe] at hen
          exact PState.noConfusion hen
      · rw [List.map_append, List.nodup_append]
        refine ⟨h.2, List.nodup_singleton _, ?_⟩
        intro a ha hb
        have hbe : a = pid := List.mem_singleton.mp hb
        obtain ⟨p, hp, hpe⟩ := List.mem_map.mp ha
        have hnone : findP r pid = none := by
          cases hfp : findP r pid with
          | none => rfl
          | some q => rw [hfp] at hnot; exact absurd rfl hnot
        exact findP_none hnone p hp (by rw [hpe, hbe])
    · exact h

/-- `unload` preserves the invariant: removal is blocked while any stored
plugin depends on the removed id. -/
theorem unloadOp_inv (pid : String) {r : List PluginRec}
    (h : InvPM r) : InvPM (unloadOp r pid) := by
  unfold unloadOp
  cases hf : findP r pid with
  | none => exact h
  | some p =>
    dsimp only
    split
    · exact h
    · rename_i hany
      have hnone : ∀ q ∈ r, pid ∉ q.deps := by
        intro q hq hmem
        exact hany (List.any_eq_true.mpr ⟨q, hq, List.elem_eq_true_of_mem hmem⟩)
      constructor
      · intro p2 hp2 hen d hd
        have hp2r : p2 ∈ r := List.mem_of_mem_filter hp2
        obtain ⟨q, hq, hqid, hqen⟩ := h.1 p2 hp2r hen d hd
        have hdne : d ≠ pid := by
          intro hdp
          rw [hdp] at hd
          exact hnone p2 hp2r hd
        refine ⟨q, List.mem_filter.mpr ⟨hq, ?_⟩, hqid, hqen⟩
        simp [bne_iff_ne, hqid, hdne]
      · exact h.2.sublist (List.Sublist.map _ (List.filter_sublist r))

/-- Every registry reachable without `disable` satisfies the invariant. -/
theorem reachND_inv {r : List PluginRec} (h : ReachNoDisable r) : InvPM r := by
  induction h with
  | init => exact ⟨fun p hp => absurd hp (List.not_mem_nil p), List.nodup_nil⟩
  | load pid deps _ ih => exact loadOp_inv pid deps ih
  | enable pid _ ih => exact (enableAux_inv _ pid _ ih).1
  | unload pid _ ih => exact unloadOp_inv pid ih

/-- Counterexample to Claim C3 as stated: the state reached by load A,
load B (depending on A), enable B, disable A is reachable with the four
operations, yet plugin B is Enabled while its declared dependency A is
Disabled — `disable` never checks for Enabled dependents. -/
theorem C3_counterexample :
    ReachPM c3BadState ∧ ¬ EnabledDepsEnabled c3BadState ∧
    findP c3BadState "B" = some ⟨"B", ["A"], .enabled⟩ ∧
    findP c3BadState "A" = some ⟨"A", [], .disabled⟩ := by
  refine ⟨?_, by unfold EnabledDepsEnabled; decide, by decide, by decide⟩
  exact ReachPM.disable "A" (ReachPM.enable "B"
    (ReachPM.load "B" ["A"] (ReachPM.load "A" [] ReachPM.init)))

/-- Claim C3 (amended): in every plugin-manager state reachable by any
sequence of `load`, `enable` and `unload` operations (no `disable`), every
plugin in state Enabled has all of its declared dependencies also in state
Enabled.  The `disable` operation breaks the invariant, because it marks a
plugin Disabled without checking for Enabled dependents. -/
theorem C3_enabled_deps (r : List PluginRec) (h : ReachNoDisable r) :
    EnabledDepsEnabled r :=
  (reachND_inv h).1

/-- Witness for C3 at the concrete reachable state load A; load B; enable B. -/
theorem C3_enabled_deps_witness : EnabledDepsEnabled c3GoodState :=
  C3_enabled_deps c3GoodState
    (ReachNoDisable.enable "B" (ReachNoDisable.load "B" ["A"]
      (ReachNoDisable.load "A" [] ReachNoDisable.init)))

/-- Claim C10: constructing the engine with the option `hdmLevel: 0`
(Informational) yields an engine whose `hdmLevel` is `2`, because the explicit
falsy zero is replaced by the default; for every `hdmLevel` value in `1..4` the
constructed engine keeps the given value. -/
theorem C10_constructor_hdmLevel :
    constructorHdmLevel (some 0) = 2 ∧
    ∀ v : Nat, 1 ≤ v → v ≤ 4 → constructorHdmLevel (some v) = v := by
  refine ⟨rfl, ?_⟩
  intro v h1 _
  simp [constructorHdmLevel]
  omega

/-- Witness for C10 at the concrete levels `0` and `3`. -/
theorem C10_constructor_hdmLevel_witness :
    constructorHdmLevel (some 0) = 2 ∧ constructorHdmLevel (some 3) = 3 :=
  ⟨C10_constructor_hdmLevel.1, C10_constructor_hdmLevel.2 3 (by decide) (by decide)⟩

end EAOS
